import Mathlib

/-!
Verification of the chess-opening-trees HTTP server, embedded shallowly
from the TypeScript sources:

* `src/server/src/utils/fen.ts` — FEN normalization (`expandFenRank`,
  `normaliseEnPassant`, `normaliseFen`);
* `src/server/src/services/openingTreeService.ts` — the query service
  (`removeEnPassantFromFen`, `mergeMoves`, `OpeningTreeService.queryPosition`);
* `src/server/src/router.ts` — the route handler for `GET /{tree}/{key}`.

JavaScript strings are modelled as `List Char`; a thrown exception is
modelled with `Except` (the error payload is the message); a JavaScript
`number` holding the result of a division that may be non-finite is
modelled as `Option Int` (`none` = Infinity/NaN).
-/

set_option maxHeartbeats 4000000

deriving instance DecidableEq for Except

namespace OpeningTrees

/-- Characters of a JavaScript string. -/
abbrev Str := List Char

/-- The characters of a Lean string literal; used to write concrete inputs. -/
def str (s : String) : Str := s.data

/-- Models JavaScript `String.prototype.split` with a single-character
separator class: the string is cut at every character satisfying `p`,
keeping empty segments (as in `piecePlacement.split("/")`). -/
def splitOnPred (p : Char → Bool) : Str → List Str
  | [] => [[]]
  | c :: cs =>
    match splitOnPred p cs with
    | [] => [[c]]
    | t :: ts => if p c then [] :: t :: ts else (c :: t) :: ts

/-- Models `fen.trim().split(/\s+/).filter(Boolean)`: the maximal runs of
non-whitespace characters, in order.  (Because empty segments are filtered
out, cutting at every whitespace character is equivalent to cutting at
whitespace runs, and trimming becomes redundant.) -/
def fenParts (s : Str) : List Str :=
  (splitOnPred Char.isWhitespace s).filter (fun t => t ≠ [])

/-- Models JavaScript `s.split(/\s+/)` with no trimming and no filtering:
the string is cut at maximal whitespace runs, keeping a leading (resp.
trailing) empty segment when the string starts (resp. ends) with
whitespace. -/
def jsSplitWs : Str → List Str
  | [] => [[]]
  | c :: cs =>
    if c.isWhitespace then
      if (cs.headD 'x').isWhitespace then jsSplitWs cs else [] :: jsSplitWs cs
    else
      match jsSplitWs cs with
      | [] => [[c]]
      | t :: ts => (c :: t) :: ts

/-- Function `expandFenRank` from `fen.ts`: every digit becomes that many spaces
(run-length-decoded empty squares), then the rank is padded with spaces
and truncated to exactly 8 squares. -/
def expandFenRank (rankStr : Str) : Str :=
  let joined := (rankStr.map fun ch =>
    if ch.isDigit then List.replicate (ch.toNat - 48) ' ' else [ch]).flatten
  (joined ++ List.replicate 8 ' ').take 8

/-- The test `/^[a-h][36]$/` applied to the en-passant field. -/
def isEpSquare : Str → Bool
  | [f, r] => (decide ('a' ≤ f) && decide (f ≤ 'h')) && (r == '3' || r == '6')
  | _ => false

/-- The TypeError thrown in JavaScript when `ranks[pawnRankIdx]` is
`undefined` (piece placement with too few ranks) and `expandFenRank`
calls `.split` on it. -/
def rankMissingError : Str := str "TypeError: rankStr.split is not a function"

/-- Function `normaliseEnPassant` from `fen.ts`.  Keeps `-` and any field that is
not a candidate square unchanged; otherwise keeps the square exactly when
a pawn of the side to move stands on an adjacent file of the inspected
rank, else replaces it with `-`.  Accessing a rank that does not exist in
the placement throws in JavaScript, modelled by `Except.error`. -/
def normaliseEnPassant (ep piecePlacement activeColor : Str) : Except Str Str :=
  if ep = str "-" then .ok ep
  else if isEpSquare ep = false then .ok ep
  else
    let fileIdx := (ep.headD ' ').toNat - 97
    let pawnChar := if activeColor = str "w" then 'P' else 'p'
    let pawnRankIdx := 8 - (if activeColor = str "w" then 5 else 4)
    let ranks := splitOnPred (fun c => c == '/') piecePlacement
    match ranks.get? pawnRankIdx with
    | none => .error rankMissingError
    | some rankRaw =>
      let rankExpanded := expandFenRank rankRaw
      let leftOk := 1 ≤ fileIdx ∧ rankExpanded.getD (fileIdx - 1) ' ' = pawnChar
      let rightOk := fileIdx + 1 ≤ 7 ∧ rankExpanded.getD (fileIdx + 1) ' ' = pawnChar
      .ok (if leftOk ∨ rightOk then ep else str "-")

/-- The message of the error thrown by `normaliseFen` on fewer than four
whitespace-separated fields. -/
def insufficientPartsError (fen : Str) : Str :=
  str "Invalid FEN string: insufficient parts - " ++ fen

/-- The template literal of `normaliseFen`: the four fields joined by
single spaces. -/
def joinFen (p1 a c e : Str) : Str :=
  p1 ++ ' ' :: (a ++ ' ' :: (c ++ ' ' :: e))

/-- Function `normaliseFen` from `fen.ts`: split into whitespace-separated fields,
fail on fewer than four, normalise the en-passant field and reassemble
the first three fields plus the resolved en-passant target with single
spaces (move counters and anything after the fourth field are dropped). -/
def normaliseFen (fen : Str) : Except Str Str :=
  let parts := fenParts fen
  if parts.length < 4 then .error (insufficientPartsError fen)
  else
    let piecePlacement := parts.getD 0 []
    let activeColor := parts.getD 1 []
    let castlingRights := parts.getD 2 []
    let enPassantTarget := parts.getD 3 []
    (normaliseEnPassant enPassantTarget piecePlacement activeColor).map fun ep =>
      joinFen piecePlacement activeColor castlingRights ep

/-! ## The query service (`openingTreeService.ts`) and its repository rows -/

/-- A row of the `positions` table (`PositionRow` in `types.ts`). -/
structure PositionRow where
  id : Nat
  fen : Str
deriving DecidableEq

/-- A row returned by `OpeningTreeRepository.getMovesFromPosition`
(`MoveRow` in `types.ts`): the move, the destination position's key and
that destination's aggregated statistics. -/
structure MoveRow where
  move : Str
  fen : Str
  total_games : Int
  white_wins : Int
  draws : Int
  black_wins : Int
  total_player_elo : Int
  total_player_performance : Int
  last_played_date : Str
  game_ref : Str
deriving DecidableEq, Inhabited

/-- The read interface of `OpeningTreeRepository` (`server.ts`): the two
SELECT-only operations the service uses.  The underlying database is
opened read-only, so the interface is a pure lookup. -/
structure OpeningTreeRepository where
  getPositionByFen : Str → Option PositionRow
  getMovesFromPosition : Nat → List MoveRow

/-- A move entry of the HTTP response (`PositionResponse` in `types.ts`).
`rating`/`performance` are JavaScript numbers that may be non-finite when
`total_games` is zero, modelled as `Option Int` (`none` = non-finite). -/
structure ResponseMove where
  move : Str
  fen : Str
  total_games : Int
  white_wins : Int
  draws : Int
  black_wins : Int
  last_played_date : Str
  game_ref : Str
  rating : Option Int
  performance : Option Int
deriving DecidableEq

/-- The body of a successful query (`PositionResponse` in `types.ts`). -/
structure PositionResponse where
  fen : Str
  moves : List ResponseMove
deriving DecidableEq

/-- Function `removeEnPassantFromFen` from `openingTreeService.ts`: split on
whitespace runs, force the fourth field to `-` when present, keep only the
first four fields, re-join with single spaces. -/
def removeEnPassantFromFen (fen : Str) : Str :=
  let parts := jsSplitWs fen
  let parts := if 4 ≤ parts.length then parts.set 3 (str "-") else parts
  List.intercalate [' '] (parts.take 4)

/-- JavaScript `Map.prototype.set` on an insertion-ordered association
list: an existing key keeps its position and gets the new value; a new
key is appended at the end. -/
def mapSet (d : List (Str × MoveRow)) (k : Str) (v : MoveRow) : List (Str × MoveRow) :=
  match d with
  | [] => [(k, v)]
  | (k', v') :: rest => if k' = k then (k', v) :: rest else (k', v') :: mapSet rest k v

/-- JavaScript `Map.prototype.has`. -/
def mapHas (d : List (Str × MoveRow)) (k : Str) : Bool :=
  d.any (fun kv => kv.1 == k)

/-- The first loop of `mergeMoves`: `for (const m of moves1) dict.set(m.move, {...m})`. -/
def addAll (d : List (Str × MoveRow)) (ms : List MoveRow) : List (Str × MoveRow) :=
  ms.foldl (fun d m => mapSet d m.move m) d

/-- The second loop of `mergeMoves`:
`for (const m of moves2) if (!dict.has(m.move)) dict.set(m.move, {...m})`. -/
def addNew (d : List (Str × MoveRow)) (ms : List MoveRow) : List (Str × MoveRow) :=
  ms.foldl (fun d m => if mapHas d m.move then d else mapSet d m.move m) d

/-- Function `mergeMoves` from `openingTreeService.ts`: all of `moves1` keyed by
move, then every move of `moves2` whose key is not yet present; the result
is the map's values in insertion order. -/
def mergeMoves (moves1 moves2 : List MoveRow) : List MoveRow :=
  (addNew (addAll [] moves1) moves2).map (fun kv => kv.2)

/-- Models `Math.trunc(a / b)` on integer operands: truncation toward zero, with
`none` for the non-finite value (Infinity or NaN) produced by a zero
divisor. -/
def jsDivTrunc (a b : Int) : Option Int :=
  if b = 0 then none else some (a.tdiv b)

/-- The per-move transformation inside `queryPosition`: copy the row's
fields and derive `rating` and `performance` by truncated division of the
stored sums by `total_games`. -/
def transformMove (m : MoveRow) : ResponseMove :=
  { move := m.move
    fen := m.fen
    total_games := m.total_games
    white_wins := m.white_wins
    draws := m.draws
    black_wins := m.black_wins
    last_played_date := m.last_played_date
    game_ref := m.game_ref
    rating := jsDivTrunc m.total_player_elo m.total_games
    performance := jsDivTrunc m.total_player_performance m.total_games }

/-- One step of a stable descending insertion by `total_games`: the new
element goes in front of the first element whose `total_games` does not
exceed its own. -/
def insertByGames (m : ResponseMove) : List ResponseMove → List ResponseMove
  | [] => [m]
  | x :: xs =>
    if x.total_games ≤ m.total_games then m :: x :: xs else x :: insertByGames m xs

/-- Models `transformed.sort((a, b) => b.total_games - a.total_games)`:
`Array.prototype.sort` with a consistent comparator produces the unique
stable descending ordering by `total_games`, here as an insertion sort. -/
def sortByGames (l : List ResponseMove) : List ResponseMove :=
  l.foldr insertByGames []

/-- The move rows `queryPosition` works from: the found position's own
rows, merged with the rows of the same position with en-passant forced to
`-` when the normalised key itself carries an en-passant target (fourth
whitespace field present and different from `-`) and that position exists. -/
def epMergedMoves (repo : OpeningTreeRepository) (normalized : Str)
    (position : PositionRow) : List MoveRow :=
  let moves0 := repo.getMovesFromPosition position.id
  let parts := jsSplitWs normalized
  if 4 ≤ parts.length ∧ parts.getD 3 [] ≠ str "-" then
    match repo.getPositionByFen (removeEnPassantFromFen normalized) with
    | some noEpPos => mergeMoves moves0 (repo.getMovesFromPosition noEpPos.id)
    | none => moves0
  else moves0

/-- Method `OpeningTreeService.queryPosition`: normalise the key (propagating any
exception), look the position up, fetch its moves (merging near-duplicate
en-passant positions, `epMergedMoves`), derive per-move statistics and
sort by `total_games` descending. -/
def queryPosition (repo : OpeningTreeRepository) (fen : Str) :
    Except Str (Option PositionResponse) :=
  (normaliseFen fen).map fun normalized =>
    match repo.getPositionByFen normalized with
    | none => none
    | some position =>
      some { fen := position.fen,
             moves := sortByGames ((epMergedMoves repo normalized position).map transformMove) }

/-! ## The route handler (`router.ts`) -/

/-- The body of a reply of the `GET /{tree}/{key}` handler. -/
inductive ReplyBody where
  | detail (msg : Str)
  | found (resp : PositionResponse)
deriving DecidableEq

/-- Detail message for an unknown tree name. -/
def treeNotFoundDetail (treeName : Str) : Str :=
  str "Tree '" ++ treeName ++ str "' not found"

/-- Detail message for an unknown position. -/
def positionNotFoundDetail (fen : Str) : Str :=
  str "Position not found: " ++ fen

/-- The `GET /{treeName}/*` handler of `registerRoutes` (`router.ts`),
after URL decoding: 404 with a detail body when the tree name is not
configured or the queried position is not found; 200 with the query result
otherwise.  An exception escaping `queryPosition` is not caught by the
handler (modelled by `Except.error`). -/
def handleTreeQuery (services : Str → Option OpeningTreeRepository)
    (treeName fen : Str) : Except Str (Nat × ReplyBody) :=
  match services treeName with
  | none => .ok (404, .detail (treeNotFoundDetail treeName))
  | some repo =>
    match queryPosition repo fen with
    | .error e => .error e
    | .ok none => .ok (404, .detail (positionNotFoundDetail fen))
    | .ok (some result) => .ok (200, .found result)

/-- The outgoing-move rows of the position stored under a key, or `[]`
when no position is stored under it. -/
def movesOfKey (repo : OpeningTreeRepository) (key : Str) : List MoveRow :=
  match repo.getPositionByFen key with
  | some q => repo.getMovesFromPosition q.id
  | none => []

/-! ## A concrete two-position store used as a test fixture -/

/-- Normalised key carrying a genuine (capturable) en-passant target. -/
def wKeyEp : Str := str "rnbqkbnr/ppp2ppp/4p3/3pP3/8/8/PPPP1PPP/RNBQKBNR w KQkq d6"

/-- The same position's key with the en-passant field forced to `-`. -/
def wKeyNo : Str := str "rnbqkbnr/ppp2ppp/4p3/3pP3/8/8/PPPP1PPP/RNBQKBNR w KQkq -"

/-- A move row stored under the en-passant key's position. -/
def wRowA : MoveRow :=
  { move := str "exd6", fen := str "destA", total_games := 3, white_wins := 1,
    draws := 1, black_wins := 1, total_player_elo := 7000,
    total_player_performance := 6500, last_played_date := str "2024-01-01",
    game_ref := str "gA" }

/-- A move row stored under the bare key's position. -/
def wRowB : MoveRow :=
  { move := str "Nf3", fen := str "destB", total_games := 5, white_wins := 2,
    draws := 2, black_wins := 1, total_player_elo := 11000,
    total_player_performance := 10001, last_played_date := str "2024-02-02",
    game_ref := str "gB" }

/-- A store holding the same position twice: once under the en-passant
key (id 1, one move `exd6`) and once under the bare key (id 2, one move
`Nf3`). -/
def wRepo : OpeningTreeRepository :=
  { getPositionByFen := fun s =>
      if s = wKeyEp then some { id := 1, fen := wKeyEp }
      else if s = wKeyNo then some { id := 2, fen := wKeyNo }
      else none
    getMovesFromPosition := fun i =>
      if i = 1 then [wRowA] else if i = 2 then [wRowB] else [] }

/-- A query carrying the en-passant target (with move counters). -/
def wQueryEp : Str :=
  str "rnbqkbnr/ppp2ppp/4p3/3pP3/8/8/PPPP1PPP/RNBQKBNR w KQkq d6 0 3"

/-- The same position queried without the en-passant target. -/
def wQueryNo : Str :=
  str "rnbqkbnr/ppp2ppp/4p3/3pP3/8/8/PPPP1PPP/RNBQKBNR w KQkq - 4 9"

/-- The response to `wQueryEp` against `wRepo`: both rows, merged and
sorted by total games descending. -/
def wRespEp : PositionResponse :=
  { fen := wKeyEp, moves := [transformMove wRowB, transformMove wRowA] }

/-- The response to `wQueryNo` against `wRepo`: only the bare position's
own row. -/
def wRespNo : PositionResponse :=
  { fen := wKeyNo, moves := [transformMove wRowB] }

/-- A one-tree service table for exercising the route handler. -/
def wServices : Str → Option OpeningTreeRepository :=
  fun n => if n = str "t" then some wRepo else none

/-! ## Derived vocabulary used by the lemmas and claims -/

/-- A field produced by `fenParts`: nonempty and whitespace-free. -/
abbrev goodToken (t : Str) : Prop := t ≠ [] ∧ ∀ ch ∈ t, ch.isWhitespace = false

/-- The keys of the insertion-ordered map. -/
def mapKeys (d : List (Str × MoveRow)) : List Str := d.map Prod.fst

/-- The move names of a list of rows. -/
def moveNames (l : List MoveRow) : List Str := l.map (fun m => m.move)

/-- The spec's capturability condition, stated over the raw fields: some
rank exists at the inspected index of the `/`-separated placement (the
4th row for white to move — chess rank 5 — and the 5th row otherwise —
chess rank 4), and after expanding run-length-encoded empty squares a pawn
of the side to move stands on a file adjacent to the target's file. -/
def capturingPawnAdjacent (piecePlacement activeColor ep : Str) : Prop :=
  ∃ rankRaw, (splitOnPred (fun c => c == '/') piecePlacement).get?
      (8 - (if activeColor = str "w" then 5 else 4)) = some rankRaw ∧
    ((1 ≤ (ep.headD ' ').toNat - 97 ∧
      (expandFenRank rankRaw).getD ((ep.headD ' ').toNat - 97 - 1) ' '
        = (if activeColor = str "w" then 'P' else 'p')) ∨
     ((ep.headD ' ').toNat - 97 + 1 ≤ 7 ∧
      (expandFenRank rankRaw).getD ((ep.headD ' ').toNat - 97 + 1) ' '
        = (if activeColor = str "w" then 'P' else 'p')))

/-! ## Lemmas: splitting and joining -/

theorem splitOnPred_ne_nil (p : Char → Bool) (s : Str) : splitOnPred p s ≠ [] := by
  cases s with
  | nil => simp [splitOnPred]
  | cons c cs =>
    show (match splitOnPred p cs with
      | [] => [[c]]
      | t :: ts => if p c then [] :: t :: ts else (c :: t) :: ts) ≠ []
    cases splitOnPred p cs with
    | nil => simp
    | cons t ts => dsimp only; split <;> simp

theorem splitOnPred_cons_of_eq (p : Char → Bool) (c : Char) (cs : Str) (t0 : Str)
    (ts : List Str) (h : splitOnPred p cs = t0 :: ts) :
    splitOnPred p (c :: cs) = if p c then [] :: t0 :: ts else (c :: t0) :: ts := by
  show (match splitOnPred p cs with
    | [] => [[c]]
    | t :: ts => if p c then [] :: t :: ts else (c :: t) :: ts) = _
  rw [h]

theorem sepFree_of_mem_splitOnPred (p : Char → Bool) :
    ∀ (s t : Str), t ∈ splitOnPred p s → ∀ c ∈ t, p c = false := by
  intro s
  induction s with
  | nil =>
    intro t ht c hc
    simp [splitOnPred] at ht
    subst ht
    simp at hc
  | cons a s ih =>
    intro t ht c hc
    cases h : splitOnPred p s with
    | nil => exact absurd h (splitOnPred_ne_nil p s)
    | cons t0 ts =>
      rw [splitOnPred_cons_of_eq p a s t0 ts h] at ht
      by_cases hpa : p a = true
      · rw [if_pos hpa] at ht
        rcases List.mem_cons.mp ht with ht | ht
        · subst ht; simp at hc
        · exact ih t (h ▸ ht) c hc
      · rw [if_neg hpa] at ht
        rcases List.mem_cons.mp ht with ht | ht
        · subst ht
          rcases List.mem_cons.mp hc with hc | hc
          · subst hc; simpa using hpa
          · exact ih t0 (h ▸ List.mem_cons_self t0 ts) c hc
        · exact ih t (h ▸ List.mem_cons_of_mem t0 ht) c hc

theorem splitOnPred_token_append (p : Char → Bool) (sep : Char) (hsep : p sep = true) :
    ∀ (t rest : Str), (∀ c ∈ t, p c = false) →
      splitOnPred p (t ++ sep :: rest) = t :: splitOnPred p rest := by
  intro t
  induction t with
  | nil =>
    intro rest _
    show splitOnPred p (sep :: rest) = [] :: splitOnPred p rest
    cases h : splitOnPred p rest with
    | nil => exact absurd h (splitOnPred_ne_nil p rest)
    | cons t0 ts => rw [splitOnPred_cons_of_eq p sep rest t0 ts h, if_pos hsep]
  | cons c t ih =>
    intro rest hfree
    have hc : p c = false := hfree c (List.mem_cons_self c t)
    have ht : ∀ x ∈ t, p x = false := fun x hx => hfree x (List.mem_cons_of_mem c hx)
    show splitOnPred p (c :: (t ++ sep :: rest)) = (c :: t) :: splitOnPred p rest
    cases h : splitOnPred p rest with
    | nil => exact absurd h (splitOnPred_ne_nil p rest)
    | cons t0 ts =>
      have hin : splitOnPred p (t ++ sep :: rest) = t :: t0 :: ts := by
        rw [ih rest ht, h]
      rw [splitOnPred_cons_of_eq p c _ t (t0 :: ts) hin, if_neg (by simp [hc])]

theorem splitOnPred_sepFree (p : Char → Bool) :
    ∀ t : Str, (∀ c ∈ t, p c = false) → splitOnPred p t = [t] := by
  intro t
  induction t with
  | nil => intro; rfl
  | cons c t ih =>
    intro hfree
    have hc : p c = false := hfree c (List.mem_cons_self c t)
    have ht : ∀ x ∈ t, p x = false := fun x hx => hfree x (List.mem_cons_of_mem c hx)
    rw [splitOnPred_cons_of_eq p c t t [] (ih ht), if_neg (by simp [hc])]

theorem fenParts_joined (p1 a c e : Str)
    (hp1 : p1 ≠ []) (ha : a ≠ []) (hc : c ≠ []) (he : e ≠ [])
    (fp1 : ∀ ch ∈ p1, ch.isWhitespace = false)
    (fa : ∀ ch ∈ a, ch.isWhitespace = false)
    (fc : ∀ ch ∈ c, ch.isWhitespace = false)
    (fe : ∀ ch ∈ e, ch.isWhitespace = false) :
    fenParts (joinFen p1 a c e) = [p1, a, c, e] := by
  have hsp : Char.isWhitespace ' ' = true := by decide
  unfold fenParts joinFen
  rw [splitOnPred_token_append _ _ hsp p1 _ fp1,
    splitOnPred_token_append _ _ hsp a _ fa,
    splitOnPred_token_append _ _ hsp c _ fc,
    splitOnPred_sepFree _ e fe]
  simp [List.filter, hp1, ha, hc, he]

theorem jsSplitWs_ne_nil : ∀ (s : Str), jsSplitWs s ≠ []
  | [] => by simp [jsSplitWs]
  | c :: cs => by
    rw [jsSplitWs]
    by_cases hc : c.isWhitespace = true
    · rw [if_pos hc]
      by_cases h2 : (cs.headD 'x').isWhitespace = true
      · rw [if_pos h2]; exact jsSplitWs_ne_nil cs
      · rw [if_neg h2]; simp
    · rw [if_neg hc]
      cases h : jsSplitWs cs with
      | nil => simp
      | cons t ts => simp

theorem jsSplitWs_cons_not (c : Char) (cs t0 : Str) (ts : List Str)
    (hc : c.isWhitespace = false) (h : jsSplitWs cs = t0 :: ts) :
    jsSplitWs (c :: cs) = (c :: t0) :: ts := by
  rw [jsSplitWs, if_neg (by simp [hc]), h]

theorem jsSplitWs_ws_cons_not (c c2 : Char) (cs2 : Str)
    (hc : c.isWhitespace = true) (h2 : c2.isWhitespace = false) :
    jsSplitWs (c :: c2 :: cs2) = [] :: jsSplitWs (c2 :: cs2) := by
  rw [jsSplitWs, if_pos hc]
  rw [if_neg (by simp [h2])]

theorem jsSplitWs_sepFree :
    ∀ t : Str, (∀ c ∈ t, c.isWhitespace = false) → jsSplitWs t = [t] := by
  intro t
  induction t with
  | nil => intro; rfl
  | cons c t ih =>
    intro hfree
    have hc : c.isWhitespace = false := hfree c (List.mem_cons_self c t)
    have ht : ∀ x ∈ t, x.isWhitespace = false := fun x hx =>
      hfree x (List.mem_cons_of_mem c hx)
    exact jsSplitWs_cons_not c t t [] hc (ih ht)

theorem jsSplitWs_token_append :
    ∀ (t rest : Str), t ≠ [] → (∀ c ∈ t, c.isWhitespace = false) →
      (∃ r rs, rest = r :: rs ∧ r.isWhitespace = false) →
      jsSplitWs (t ++ ' ' :: rest) = t :: jsSplitWs rest
  | [], _, h, _, _ => absurd rfl h
  | [c], rest, _, hfree, ⟨r, rs, hrest, hr⟩ => by
    have hc : c.isWhitespace = false := hfree c (List.mem_cons_self c [])
    subst hrest
    have hinner : jsSplitWs (' ' :: r :: rs) = [] :: jsSplitWs (r :: rs) :=
      jsSplitWs_ws_cons_not ' ' r rs (by decide) hr
    show jsSplitWs (c :: ' ' :: r :: rs) = [c] :: jsSplitWs (r :: rs)
    cases h : jsSplitWs (r :: rs) with
    | nil => exact absurd h (jsSplitWs_ne_nil _)
    | cons t0 ts =>
      rw [jsSplitWs_cons_not c (' ' :: r :: rs) [] (t0 :: ts) hc (by rw [hinner, h])]
  | c :: c2 :: t, rest, _, hfree, hrest => by
    have hc : c.isWhitespace = false := hfree c (List.mem_cons_self c (c2 :: t))
    have ht : ∀ x ∈ c2 :: t, x.isWhitespace = false := fun x hx =>
      hfree x (List.mem_cons_of_mem c hx)
    have ih := jsSplitWs_token_append (c2 :: t) rest (by simp) ht hrest
    show jsSplitWs (c :: ((c2 :: t) ++ ' ' :: rest)) = (c :: c2 :: t) :: jsSplitWs rest
    cases h : jsSplitWs rest with
    | nil => exact absurd h (jsSplitWs_ne_nil _)
    | cons t0 ts =>
      rw [jsSplitWs_cons_not c ((c2 :: t) ++ ' ' :: rest) (c2 :: t) (t0 :: ts) hc
        (by rw [ih, h])]

theorem jsSplitWs_joined (p1 a c e : Str)
    (hp1 : p1 ≠ []) (ha : a ≠ []) (hc : c ≠ []) (he : e ≠ [])
    (fp1 : ∀ ch ∈ p1, ch.isWhitespace = false)
    (fa : ∀ ch ∈ a, ch.isWhitespace = false)
    (fc : ∀ ch ∈ c, ch.isWhitespace = false)
    (fe : ∀ ch ∈ e, ch.isWhitespace = false) :
    jsSplitWs (joinFen p1 a c e) = [p1, a, c, e] := by
  obtain ⟨a0, arest, rfl⟩ : ∃ x xs, a = x :: xs := by
    cases a with | nil => exact absurd rfl ha | cons x xs => exact ⟨x, xs, rfl⟩
  obtain ⟨c0, crest, rfl⟩ : ∃ x xs, c = x :: xs := by
    cases c with | nil => exact absurd rfl hc | cons x xs => exact ⟨x, xs, rfl⟩
  obtain ⟨e0, erest, rfl⟩ : ∃ x xs, e = x :: xs := by
    cases e with | nil => exact absurd rfl he | cons x xs => exact ⟨x, xs, rfl⟩
  unfold joinFen
  rw [jsSplitWs_token_append p1 _ hp1 fp1
      ⟨a0, arest ++ ' ' :: ((c0 :: crest) ++ ' ' :: (e0 :: erest)), by simp,
        fa a0 (List.mem_cons_self a0 arest)⟩,
    jsSplitWs_token_append (a0 :: arest) _ (by simp) fa
      ⟨c0, crest ++ ' ' :: (e0 :: erest), by simp, fc c0 (List.mem_cons_self c0 crest)⟩,
    jsSplitWs_token_append (c0 :: crest) _ (by simp) fc
      ⟨e0, erest, rfl, fe e0 (List.mem_cons_self e0 erest)⟩,
    jsSplitWs_sepFree _ fe]


/-! ## Lemmas: structure of normalised keys -/


theorem goodToken_fenParts (s t : Str) (h : t ∈ fenParts s) : goodToken t := by
  unfold fenParts at h
  have hmem := List.mem_filter.mp h
  refine ⟨by simpa using hmem.2, sepFree_of_mem_splitOnPred _ s t hmem.1⟩

theorem goodToken_getD_fenParts (s : Str) (i : Nat) (h : i < (fenParts s).length) :
    goodToken ((fenParts s).getD i []) := by
  rw [List.getD_eq_getElem (fenParts s) [] h]
  exact goodToken_fenParts s _ (List.getElem_mem h)

theorem goodToken_dash : goodToken (str "-") := by decide

theorem normaliseEnPassant_dash (pp ac : Str) :
    normaliseEnPassant (str "-") pp ac = .ok (str "-") := by
  unfold normaliseEnPassant
  rw [if_pos rfl]

theorem normaliseEnPassant_ok_cases (ep pp ac e' : Str)
    (h : normaliseEnPassant ep pp ac = .ok e') : e' = ep ∨ e' = str "-" := by
  unfold normaliseEnPassant at h
  dsimp only at h
  split at h
  · injection h with h
    exact .inl h.symm
  · split at h
    · injection h with h
      exact .inl h.symm
    · split at h
      · exact absurd h (by simp)
      · injection h with h
        split at h
        · split at h
          · exact .inl h.symm
          · exact .inr h.symm
        · split at h
          · exact .inl h.symm
          · exact .inr h.symm

theorem normaliseFen_error_of_short (fen : Str)
    (h : (fenParts fen).length < 4) :
    normaliseFen fen = .error (insufficientPartsError fen) := by
  unfold normaliseFen
  rw [if_pos h]

theorem normaliseFen_ok_parts (fen y : Str) (h : normaliseFen fen = .ok y) :
    4 ≤ (fenParts fen).length ∧
    ∃ ep, normaliseEnPassant ((fenParts fen).getD 3 []) ((fenParts fen).getD 0 [])
        ((fenParts fen).getD 1 []) = .ok ep ∧
      y = joinFen ((fenParts fen).getD 0 []) ((fenParts fen).getD 1 [])
        ((fenParts fen).getD 2 []) ep := by
  unfold normaliseFen at h
  dsimp only at h
  by_cases hlen : (fenParts fen).length < 4
  · rw [if_pos hlen] at h
    exact absurd h (by simp)
  · rw [if_neg hlen] at h
    refine ⟨by omega, ?_⟩
    cases hne : normaliseEnPassant ((fenParts fen).getD 3 []) ((fenParts fen).getD 0 [])
        ((fenParts fen).getD 1 []) with
    | error e =>
      rw [hne] at h
      exact absurd h (by simp [Except.map])
    | ok ep =>
      rw [hne] at h
      simp only [Except.map] at h
      injection h with h
      exact ⟨ep, rfl, h.symm⟩

/-- Every successful `normaliseFen` output is four good fields joined by
single spaces, the first three being the input's first three fields and
the fourth either the input's fourth field or `-`; both split functions
recover exactly those four fields from the output. -/
theorem normaliseFen_ok_structure (fen y : Str) (h : normaliseFen fen = .ok y) :
    ∃ P A C E, y = joinFen P A C E ∧
      fenParts y = [P, A, C, E] ∧ jsSplitWs y = [P, A, C, E] ∧
      P = (fenParts fen).getD 0 [] ∧ A = (fenParts fen).getD 1 [] ∧
      C = (fenParts fen).getD 2 [] ∧
      (E = (fenParts fen).getD 3 [] ∨ E = str "-") ∧
      goodToken P ∧ goodToken A ∧ goodToken C ∧ goodToken E := by
  obtain ⟨hlen, ep, hne, hy⟩ := normaliseFen_ok_parts fen y h
  have gP := goodToken_getD_fenParts fen 0 (by omega)
  have gA := goodToken_getD_fenParts fen 1 (by omega)
  have gC := goodToken_getD_fenParts fen 2 (by omega)
  have gE : goodToken ep := by
    rcases normaliseEnPassant_ok_cases _ _ _ _ hne with hcase | hcase
    · rw [hcase]
      exact goodToken_getD_fenParts fen 3 (by omega)
    · rw [hcase]
      exact goodToken_dash
  subst hy
  refine ⟨_, _, _, ep, rfl, ?_, ?_, rfl, rfl, rfl,
    normaliseEnPassant_ok_cases _ _ _ _ hne, gP, gA, gC, gE⟩
  · exact fenParts_joined _ _ _ _ gP.1 gA.1 gC.1 gE.1 gP.2 gA.2 gC.2 gE.2
  · exact jsSplitWs_joined _ _ _ _ gP.1 gA.1 gC.1 gE.1 gP.2 gA.2 gC.2 gE.2

/-- Normalisation is a fixed point on its own successful outputs. -/
theorem normaliseFen_fixed (fen y : Str) (h : normaliseFen fen = .ok y) :
    normaliseFen y = .ok y := by
  obtain ⟨hlen, ep, hne, hy⟩ := normaliseFen_ok_parts fen y h
  have gP := goodToken_getD_fenParts fen 0 (by omega)
  have gA := goodToken_getD_fenParts fen 1 (by omega)
  have gC := goodToken_getD_fenParts fen 2 (by omega)
  have gE : goodToken ep := by
    rcases normaliseEnPassant_ok_cases _ _ _ _ hne with hcase | hcase
    · rw [hcase]
      exact goodToken_getD_fenParts fen 3 (by omega)
    · rw [hcase]
      exact goodToken_dash
  have hfp : fenParts y = [(fenParts fen).getD 0 [], (fenParts fen).getD 1 [],
      (fenParts fen).getD 2 [], ep] := by
    rw [hy]
    exact fenParts_joined _ _ _ _ gP.1 gA.1 gC.1 gE.1 gP.2 gA.2 gC.2 gE.2
  have hok : normaliseEnPassant ep ((fenParts fen).getD 0 []) ((fenParts fen).getD 1 [])
      = .ok ep := by
    rcases normaliseEnPassant_ok_cases _ _ _ _ hne with hcase | hcase
    · rw [hcase]
      rw [hcase] at hne
      exact hne
    · rw [hcase]
      exact normaliseEnPassant_dash _ _
  unfold normaliseFen
  dsimp only
  rw [hfp]
  rw [if_neg (by simp)]
  simp only [List.getD_cons_zero, List.getD_cons_succ]
  rw [hok]
  simp only [Except.map]
  rw [hy]


/-! ## Lemmas: the merge dictionary -/



theorem mapHas_iff (d : List (Str × MoveRow)) (k : Str) :
    mapHas d k = true ↔ k ∈ mapKeys d := by
  unfold mapHas mapKeys
  simp [List.any_eq_true, List.mem_map]

theorem mem_mapKeys_mapSet (d : List (Str × MoveRow)) (k : Str) (v : MoveRow) (a : Str) :
    a ∈ mapKeys (mapSet d k v) ↔ a ∈ mapKeys d ∨ a = k := by
  induction d with
  | nil => simp [mapSet, mapKeys]
  | cons kv rest ih =>
    obtain ⟨k', v'⟩ := kv
    by_cases hk : k' = k
    · simp only [mapSet, if_pos hk, mapKeys, List.map_cons, List.mem_cons]
      subst hk
      simp only [mapKeys] at ih
      tauto
    · simp only [mapSet, if_neg hk, mapKeys, List.map_cons, List.mem_cons]
      simp only [mapKeys] at ih
      rw [ih]
      tauto

theorem nodup_mapKeys_mapSet (d : List (Str × MoveRow)) (k : Str) (v : MoveRow)
    (h : (mapKeys d).Nodup) : (mapKeys (mapSet d k v)).Nodup := by
  induction d with
  | nil => simp [mapSet, mapKeys]
  | cons kv rest ih =>
    obtain ⟨k', v'⟩ := kv
    simp only [mapKeys, List.map_cons, List.nodup_cons] at h
    by_cases hk : k' = k
    · simp only [mapSet, if_pos hk, mapKeys, List.map_cons, List.nodup_cons]
      exact ⟨h.1, h.2⟩
    · simp only [mapSet, if_neg hk, mapKeys, List.map_cons, List.nodup_cons]
      refine ⟨?_, ih h.2⟩
      intro hmem
      rcases (mem_mapKeys_mapSet rest k v k').mp hmem with hin | heq
      · exact h.1 hin
      · exact hk heq

theorem mem_mapSet_cases (d : List (Str × MoveRow)) (k : Str) (v : MoveRow)
    (a : Str) (w : MoveRow) (hnd : (mapKeys d).Nodup)
    (h : (a, w) ∈ mapSet d k v) :
    ((a, w) ∈ d ∧ a ≠ k) ∨ (a = k ∧ w = v) := by
  induction d with
  | nil =>
    simp [mapSet] at h
    exact .inr ⟨h.1, h.2⟩
  | cons kv rest ih =>
    obtain ⟨k', v'⟩ := kv
    simp only [mapKeys, List.map_cons, List.nodup_cons] at hnd
    by_cases hk : k' = k
    · subst hk
      simp only [mapSet, if_pos rfl] at h
      rcases List.mem_cons.mp h with heq | hmem
      · have h1 : a = k' := congrArg Prod.fst heq
        have h2 : w = v := congrArg Prod.snd heq
        exact .inr ⟨h1, h2⟩
      · left
        refine ⟨List.mem_cons_of_mem _ hmem, ?_⟩
        intro hak
        subst hak
        exact hnd.1 (by
          have : (a, w).1 ∈ rest.map Prod.fst := List.mem_map_of_mem Prod.fst hmem
          simpa using this)
    · simp only [mapSet, if_neg hk] at h
      rcases List.mem_cons.mp h with heq | hmem
      · have h1 : a = k' := congrArg Prod.fst heq
        have h2 : w = v' := congrArg Prod.snd heq
        subst h1
        subst h2
        exact .inl ⟨List.mem_cons_self _ _, hk⟩
      · rcases ih hnd.2 hmem with ⟨hin, hne⟩ | hkv
        · exact .inl ⟨List.mem_cons_of_mem _ hin, hne⟩
        · exact .inr hkv

theorem mapKV_mapSet (d : List (Str × MoveRow)) (k : Str) (v : MoveRow)
    (hv : v.move = k) (h : ∀ kv ∈ d, (kv : Str × MoveRow).2.move = kv.1) :
    ∀ kv ∈ mapSet d k v, (kv : Str × MoveRow).2.move = kv.1 := by
  induction d with
  | nil =>
    intro kv hkv
    simp [mapSet] at hkv
    subst hkv
    exact hv
  | cons kv0 rest ih =>
    obtain ⟨k', v'⟩ := kv0
    intro kv hkv
    by_cases hk : k' = k
    · simp only [mapSet, if_pos hk] at hkv
      rcases List.mem_cons.mp hkv with heq | hmem
      · subst heq
        simpa [hk] using hv
      · exact h kv (List.mem_cons_of_mem _ hmem)
    · simp only [mapSet, if_neg hk] at hkv
      rcases List.mem_cons.mp hkv with heq | hmem
      · subst heq
        exact h _ (List.mem_cons_self _ _)
      · exact ih (fun kv hkv => h kv (List.mem_cons_of_mem _ hkv)) kv hmem


theorem addAll_nil (d : List (Str × MoveRow)) : addAll d [] = d := rfl

theorem addAll_cons (d : List (Str × MoveRow)) (m : MoveRow) (ms : List MoveRow) :
    addAll d (m :: ms) = addAll (mapSet d m.move m) ms := rfl

theorem addNew_nil (d : List (Str × MoveRow)) : addNew d [] = d := rfl

theorem addNew_cons (d : List (Str × MoveRow)) (m : MoveRow) (ms : List MoveRow) :
    addNew d (m :: ms) = addNew (if mapHas d m.move then d else mapSet d m.move m) ms := rfl

theorem nodup_mapKeys_addAll (ms : List MoveRow) :
    ∀ d, (mapKeys d).Nodup → (mapKeys (addAll d ms)).Nodup := by
  induction ms with
  | nil => intro d hd; exact hd
  | cons m ms ih =>
    intro d hd
    rw [addAll_cons]
    exact ih _ (nodup_mapKeys_mapSet d m.move m hd)

theorem mem_mapKeys_addAll (ms : List MoveRow) :
    ∀ d a, a ∈ mapKeys (addAll d ms) ↔ a ∈ mapKeys d ∨ a ∈ moveNames ms := by
  induction ms with
  | nil => intro d a; simp [addAll_nil, moveNames]
  | cons m ms ih =>
    intro d a
    rw [addAll_cons, ih, mem_mapKeys_mapSet]
    show _ ∨ _ ↔ _ ∨ a ∈ (m :: ms).map (fun m => m.move)
    simp only [List.map_cons, List.mem_cons, moveNames]
    tauto

theorem mem_addAll_cases (ms : List MoveRow) :
    ∀ d, (mapKeys d).Nodup → ∀ a w, (a, w) ∈ addAll d ms →
      ((a, w) ∈ d ∧ a ∉ moveNames ms) ∨ (w ∈ ms ∧ w.move = a) := by
  induction ms with
  | nil =>
    intro d _ a w h
    exact .inl ⟨h, by simp [moveNames]⟩
  | cons m ms ih =>
    intro d hnd a w h
    rw [addAll_cons] at h
    rcases ih _ (nodup_mapKeys_mapSet d m.move m hnd) a w h with ⟨hin, hnot⟩ | ⟨hw, hwm⟩
    · rcases mem_mapSet_cases d m.move m a w hnd hin with ⟨hd, hne⟩ | ⟨hak, hwv⟩
      · refine .inl ⟨hd, ?_⟩
        show a ∉ (m :: ms).map (fun m => m.move)
        simp only [List.map_cons, List.mem_cons, not_or]
        exact ⟨fun hx => hne (hx ▸ rfl), hnot⟩
      · exact .inr ⟨hwv ▸ List.mem_cons_self m ms, by rw [hwv, hak]⟩
    · exact .inr ⟨List.mem_cons_of_mem m hw, hwm⟩

theorem mapKV_addAll (ms : List MoveRow) :
    ∀ d, (∀ kv ∈ d, (kv : Str × MoveRow).2.move = kv.1) →
      ∀ kv ∈ addAll d ms, (kv : Str × MoveRow).2.move = kv.1 := by
  induction ms with
  | nil => intro d hd; exact hd
  | cons m ms ih =>
    intro d hd
    rw [addAll_cons]
    exact ih _ (mapKV_mapSet d m.move m rfl hd)

theorem nodup_mapKeys_addNew (ms : List MoveRow) :
    ∀ d, (mapKeys d).Nodup → (mapKeys (addNew d ms)).Nodup := by
  induction ms with
  | nil => intro d hd; exact hd
  | cons m ms ih =>
    intro d hd
    rw [addNew_cons]
    by_cases hhas : mapHas d m.move = true
    · rw [if_pos hhas]
      exact ih _ hd
    · rw [if_neg hhas]
      exact ih _ (nodup_mapKeys_mapSet d m.move m hd)

theorem mem_mapKeys_addNew (ms : List MoveRow) :
    ∀ d a, a ∈ mapKeys (addNew d ms) ↔ a ∈ mapKeys d ∨ a ∈ moveNames ms := by
  induction ms with
  | nil => intro d a; simp [addNew_nil, moveNames]
  | cons m ms ih =>
    intro d a
    rw [addNew_cons]
    show a ∈ mapKeys (addNew (if mapHas d m.move then d else mapSet d m.move m) ms) ↔
      _ ∨ a ∈ (m :: ms).map (fun m => m.move)
    by_cases hhas : mapHas d m.move = true
    · rw [if_pos hhas, ih]
      simp only [List.map_cons, List.mem_cons, moveNames]
      constructor
      · rintro (hd | hm)
        · exact .inl hd
        · exact .inr (.inr hm)
      · rintro (hd | (ha | hm))
        · exact .inl hd
        · subst ha
          exact .inl ((mapHas_iff d _).mp hhas)
        · exact .inr hm
    · rw [if_neg hhas, ih, mem_mapKeys_mapSet]
      simp only [List.map_cons, List.mem_cons, moveNames]
      tauto

theorem mem_addNew_cases (ms : List MoveRow) :
    ∀ d, (mapKeys d).Nodup → ∀ a w, (a, w) ∈ addNew d ms →
      (a, w) ∈ d ∨ (w ∈ ms ∧ w.move = a ∧ a ∉ mapKeys d) := by
  induction ms with
  | nil =>
    intro d _ a w h
    exact .inl h
  | cons m ms ih =>
    intro d hnd a w h
    rw [addNew_cons] at h
    by_cases hhas : mapHas d m.move = true
    · rw [if_pos hhas] at h
      rcases ih d hnd a w h with hd | ⟨hw, hwa, hnk⟩
      · exact .inl hd
      · exact .inr ⟨List.mem_cons_of_mem m hw, hwa, hnk⟩
    · rw [if_neg hhas] at h
      have hnk : m.move ∉ mapKeys d := fun hk => hhas ((mapHas_iff d m.move).mpr hk)
      rcases ih _ (nodup_mapKeys_mapSet d m.move m hnd) a w h with hin | ⟨hw, hwa, hnk2⟩
      · rcases mem_mapSet_cases d m.move m a w hnd hin with ⟨hd, _⟩ | ⟨hak, hwv⟩
        · exact .inl hd
        · subst hak
          exact .inr ⟨hwv ▸ List.mem_cons_self m ms, by rw [hwv], hnk⟩
      · refine .inr ⟨List.mem_cons_of_mem m hw, hwa, fun hk => ?_⟩
        exact hnk2 ((mem_mapKeys_mapSet d m.move m a).mpr (.inl hk))

theorem mapKV_addNew (ms : List MoveRow) :
    ∀ d, (∀ kv ∈ d, (kv : Str × MoveRow).2.move = kv.1) →
      ∀ kv ∈ addNew d ms, (kv : Str × MoveRow).2.move = kv.1 := by
  induction ms with
  | nil => intro d hd; exact hd
  | cons m ms ih =>
    intro d hd
    rw [addNew_cons]
    by_cases hhas : mapHas d m.move = true
    · rw [if_pos hhas]
      exact ih _ hd
    · rw [if_neg hhas]
      exact ih _ (mapKV_mapSet d m.move m rfl hd)

theorem moveNames_values (d : List (Str × MoveRow))
    (hKV : ∀ kv ∈ d, (kv : Str × MoveRow).2.move = kv.1) :
    moveNames (d.map (fun kv => kv.2)) = mapKeys d := by
  unfold moveNames mapKeys
  rw [List.map_map]
  exact List.map_congr_left hKV

theorem moveNames_mergeMoves_nodup (ms1 ms2 : List MoveRow) :
    (moveNames (mergeMoves ms1 ms2)).Nodup := by
  unfold mergeMoves
  rw [moveNames_values _ (mapKV_addNew ms2 _ (mapKV_addAll ms1 [] (by simp)))]
  exact nodup_mapKeys_addNew ms2 _ (nodup_mapKeys_addAll ms1 [] (by simp [mapKeys]))

theorem mem_mergeMoves_cases (ms1 ms2 : List MoveRow) (m : MoveRow)
    (h : m ∈ mergeMoves ms1 ms2) :
    m ∈ ms1 ∨ (m ∈ ms2 ∧ m.move ∉ moveNames ms1) := by
  unfold mergeMoves at h
  obtain ⟨kv, hkv, hsnd⟩ := List.mem_map.mp h
  have hnd : (mapKeys (addAll [] ms1)).Nodup :=
    nodup_mapKeys_addAll ms1 [] (by simp [mapKeys])
  have hpair : (kv.1, m) ∈ addNew (addAll [] ms1) ms2 := by
    rw [← hsnd]
    exact hkv
  rcases mem_addNew_cases ms2 _ hnd kv.1 m hpair with hin | ⟨hw, hwa, hnk⟩
  · rcases mem_addAll_cases ms1 [] (by simp [mapKeys]) kv.1 m hin with ⟨hnil, _⟩ | ⟨hm, _⟩
    · simp at hnil
    · exact .inl hm
  · refine .inr ⟨hw, fun hname => hnk ?_⟩
    rw [← hwa]
    exact (mem_mapKeys_addAll ms1 [] m.move).mpr (.inr hname)

theorem mem_moveNames_mergeMoves (ms1 ms2 : List MoveRow) (n : Str) :
    n ∈ moveNames (mergeMoves ms1 ms2) ↔ n ∈ moveNames ms1 ∨ n ∈ moveNames ms2 := by
  unfold mergeMoves
  rw [moveNames_values _ (mapKV_addNew ms2 _ (mapKV_addAll ms1 [] (by simp))),
    mem_mapKeys_addNew, mem_mapKeys_addAll]
  simp [mapKeys]


/-! ## Lemmas: sorting, per-move statistics, and the query pipeline -/

theorem mem_insertByGames (m a : ResponseMove) :
    ∀ l, a ∈ insertByGames m l ↔ a = m ∨ a ∈ l := by
  intro l
  induction l with
  | nil => simp [insertByGames]
  | cons x xs ih =>
    unfold insertByGames
    split
    · simp [List.mem_cons]
    · rw [List.mem_cons, ih, List.mem_cons]
      tauto

theorem mem_sortByGames (a : ResponseMove) :
    ∀ l, a ∈ sortByGames l ↔ a ∈ l := by
  intro l
  induction l with
  | nil => simp [sortByGames]
  | cons x xs ih =>
    show a ∈ insertByGames x (sortByGames xs) ↔ _
    rw [mem_insertByGames, List.mem_cons, ih]

theorem pairwise_insertByGames (m : ResponseMove) :
    ∀ l, l.Pairwise (fun u v => v.total_games ≤ u.total_games) →
      (insertByGames m l).Pairwise (fun u v => v.total_games ≤ u.total_games) := by
  intro l
  induction l with
  | nil => intro; simp [insertByGames]
  | cons x xs ih =>
    intro h
    rw [List.pairwise_cons] at h
    unfold insertByGames
    split
    · rename_i hle
      rw [List.pairwise_cons]
      refine ⟨?_, List.pairwise_cons.mpr h⟩
      intro y hy
      rcases List.mem_cons.mp hy with rfl | hmem
      · exact hle
      · exact le_trans (h.1 y hmem) hle
    · rename_i hgt
      rw [List.pairwise_cons]
      refine ⟨?_, ih h.2⟩
      intro y hy
      rcases (mem_insertByGames m y xs).mp hy with rfl | hmem
      · omega
      · exact h.1 y hmem

/-- The response list is sorted by `total_games` in descending order. -/
theorem sortByGames_sorted :
    ∀ l, (sortByGames l).Pairwise (fun u v => v.total_games ≤ u.total_games) := by
  intro l
  induction l with
  | nil => simp [sortByGames]
  | cons x xs ih => exact pairwise_insertByGames x (sortByGames xs) ih

theorem transformMove_spec (r : MoveRow) :
    (transformMove r).move = r.move ∧ (transformMove r).fen = r.fen ∧
    (transformMove r).total_games = r.total_games ∧
    (transformMove r).rating = jsDivTrunc r.total_player_elo r.total_games ∧
    (transformMove r).performance = jsDivTrunc r.total_player_performance r.total_games :=
  ⟨rfl, rfl, rfl, rfl, rfl⟩

theorem jsDivTrunc_isSome (a b : Int) (h : b ≠ 0) : (jsDivTrunc a b).isSome = true := by
  simp [jsDivTrunc, h]

theorem jsDivTrunc_zero (a : Int) : jsDivTrunc a 0 = none := by
  simp [jsDivTrunc]

theorem intercalate_four (a b c d : Str) :
    List.intercalate [' '] [a, b, c, d] = joinFen a b c d := by
  simp [List.intercalate, List.intersperse, joinFen]

theorem removeEnPassantFromFen_eq (y P A C E : Str)
    (hjs : jsSplitWs y = [P, A, C, E]) :
    removeEnPassantFromFen y = joinFen P A C (str "-") := by
  unfold removeEnPassantFromFen
  rw [hjs]
  dsimp only
  rw [if_pos (by simp)]
  show List.intercalate [' '] (List.take 4 (List.set [P, A, C, E] 3 (str "-")))
      = joinFen P A C (str "-")
  show List.intercalate [' '] [P, A, C, str "-"] = joinFen P A C (str "-")
  exact intercalate_four P A C (str "-")

theorem epMergedMoves_withEp (repo : OpeningTreeRepository) (y P A C E : Str)
    (pos : PositionRow) (hjs : jsSplitWs y = [P, A, C, E]) (hne : E ≠ str "-") :
    epMergedMoves repo y pos =
      match repo.getPositionByFen (joinFen P A C (str "-")) with
      | some q => mergeMoves (repo.getMovesFromPosition pos.id)
          (repo.getMovesFromPosition q.id)
      | none => repo.getMovesFromPosition pos.id := by
  unfold epMergedMoves
  dsimp only
  rw [hjs, removeEnPassantFromFen_eq y P A C E hjs]
  rw [if_pos ⟨by simp, by simpa using hne⟩]

theorem epMergedMoves_dash (repo : OpeningTreeRepository) (y P A C : Str)
    (pos : PositionRow) (hjs : jsSplitWs y = [P, A, C, str "-"]) :
    epMergedMoves repo y pos = repo.getMovesFromPosition pos.id := by
  unfold epMergedMoves
  dsimp only
  rw [hjs]
  rw [if_neg (by simp)]

theorem mem_epMergedMoves (repo : OpeningTreeRepository) (y : Str)
    (pos : PositionRow) (r : MoveRow) (h : r ∈ epMergedMoves repo y pos) :
    ∃ pid, r ∈ repo.getMovesFromPosition pid := by
  unfold epMergedMoves at h
  dsimp only at h
  split at h
  · split at h
    · rename_i q hq
      rcases mem_mergeMoves_cases _ _ r h with h1 | ⟨h2, _⟩
      · exact ⟨pos.id, h1⟩
      · exact ⟨q.id, h2⟩
    · exact ⟨pos.id, h⟩
  · exact ⟨pos.id, h⟩

theorem queryPosition_found (repo : OpeningTreeRepository) (fen y : Str)
    (pos : PositionRow) (hn : normaliseFen fen = .ok y)
    (hp : repo.getPositionByFen y = some pos) :
    queryPosition repo fen = .ok (some
      { fen := pos.fen,
        moves := sortByGames ((epMergedMoves repo y pos).map transformMove) }) := by
  unfold queryPosition
  rw [hn]
  simp only [Except.map]
  rw [hp]

theorem queryPosition_missing (repo : OpeningTreeRepository) (fen y : Str)
    (hn : normaliseFen fen = .ok y) (hp : repo.getPositionByFen y = none) :
    queryPosition repo fen = .ok none := by
  unfold queryPosition
  rw [hn]
  simp only [Except.map]
  rw [hp]

theorem queryPosition_error (repo : OpeningTreeRepository) (fen e : Str)
    (hn : normaliseFen fen = .error e) :
    queryPosition repo fen = .error e := by
  unfold queryPosition
  rw [hn]
  simp only [Except.map]

theorem queryPosition_ok_inv (repo : OpeningTreeRepository) (fen : Str)
    (resp : PositionResponse)
    (h : queryPosition repo fen = .ok (some resp)) :
    ∃ y pos, normaliseFen fen = .ok y ∧ repo.getPositionByFen y = some pos ∧
      resp = { fen := pos.fen,
               moves := sortByGames ((epMergedMoves repo y pos).map transformMove) } := by
  unfold queryPosition at h
  cases hn : normaliseFen fen with
  | error e =>
    rw [hn] at h
    exact absurd h (by simp [Except.map])
  | ok y =>
    rw [hn] at h
    simp only [Except.map] at h
    cases hp : repo.getPositionByFen y with
    | none =>
      rw [hp] at h
      exact absurd h (by simp)
    | some pos =>
      rw [hp] at h
      injection h with h
      injection h with h
      exact ⟨y, pos, rfl, hp, h.symm⟩


/-! ## Lemmas: totality and the en-passant rule of normalisation -/

theorem normaliseEnPassant_total (ep pp ac : Str)
    (h : isEpSquare ep = true → 8 - (if ac = str "w" then 5 else 4) <
      (splitOnPred (fun c => c == '/') pp).length) :
    ∃ e', normaliseEnPassant ep pp ac = .ok e' := by
  unfold normaliseEnPassant
  by_cases h1 : ep = str "-"
  · rw [if_pos h1]
    exact ⟨_, rfl⟩
  · rw [if_neg h1]
    by_cases h2 : isEpSquare ep = false
    · rw [if_pos h2]
      exact ⟨_, rfl⟩
    · rw [if_neg h2]
      have hsq : isEpSquare ep = true := by
        revert h2
        cases isEpSquare ep <;> simp
      dsimp only
      cases hg : (splitOnPred (fun c => c == '/') pp).get?
          (8 - (if ac = str "w" then 5 else 4)) with
      | none =>
        have := List.get?_eq_none.mp hg
        exact absurd (h hsq) (by omega)
      | some r =>
        exact ⟨_, rfl⟩

theorem normaliseEnPassant_square (ep pp ac rankRaw : Str) (hne : ep ≠ str "-")
    (hsq : isEpSquare ep = true)
    (hg : (splitOnPred (fun c => c == '/') pp).get?
      (8 - (if ac = str "w" then 5 else 4)) = some rankRaw) :
    normaliseEnPassant ep pp ac =
      .ok (if (1 ≤ (ep.headD ' ').toNat - 97 ∧
            (expandFenRank rankRaw).getD ((ep.headD ' ').toNat - 97 - 1) ' '
              = (if ac = str "w" then 'P' else 'p')) ∨
          ((ep.headD ' ').toNat - 97 + 1 ≤ 7 ∧
            (expandFenRank rankRaw).getD ((ep.headD ' ').toNat - 97 + 1) ' '
              = (if ac = str "w" then 'P' else 'p'))
        then ep else str "-") := by
  unfold normaliseEnPassant
  rw [if_neg hne, if_neg (by simp [hsq])]
  dsimp only
  rw [hg]

theorem normaliseFen_of_parts (fen P A C E : Str) (rest : List Str)
    (hparts : fenParts fen = P :: A :: C :: E :: rest)
    (e' : Str) (hok : normaliseEnPassant E P A = .ok e') :
    normaliseFen fen = Except.ok (joinFen P A C e') := by
  unfold normaliseFen
  dsimp only
  rw [hparts]
  rw [if_neg (by simp)]
  simp only [List.getD_cons_zero, List.getD_cons_succ]
  rw [hok]
  rfl


/-! ## Claim theorems: normalisation (C3, C4, C7, C8, C10) -/


/-- C3 (corrected): for a well-formed descriptor whose en-passant field is
a square on files a–h and rank 3 or 6, and whose piece placement contains
the inspected rank, `normaliseFen` keeps the target exactly when a pawn of
the side to move stands on an adjacent file of that rank (after expanding
run-length-encoded empty squares), and otherwise replaces it with `-`. -/
theorem claim_C3_ep_rule (fen P A C E : Str) (rest : List Str)
    (hparts : fenParts fen = P :: A :: C :: E :: rest)
    (hsq : isEpSquare E = true)
    (hrank : 8 - (if A = str "w" then 5 else 4) <
      (splitOnPred (fun c => c == '/') P).length) :
    (capturingPawnAdjacent P A E → normaliseFen fen = Except.ok (joinFen P A C E)) ∧
    (¬ capturingPawnAdjacent P A E →
      normaliseFen fen = Except.ok (joinFen P A C (str "-"))) := by
  have hne : E ≠ str "-" := by
    intro hEd
    rw [hEd] at hsq
    exact absurd hsq (by decide)
  cases hg : (splitOnPred (fun c => c == '/') P).get?
      (8 - (if A = str "w" then 5 else 4)) with
  | none =>
    have := List.get?_eq_none.mp hg
    exact absurd hrank (by omega)
  | some rankRaw =>
    have hiff : capturingPawnAdjacent P A E ↔
        ((1 ≤ (E.headD ' ').toNat - 97 ∧
          (expandFenRank rankRaw).getD ((E.headD ' ').toNat - 97 - 1) ' '
            = (if A = str "w" then 'P' else 'p')) ∨
         ((E.headD ' ').toNat - 97 + 1 ≤ 7 ∧
          (expandFenRank rankRaw).getD ((E.headD ' ').toNat - 97 + 1) ' '
            = (if A = str "w" then 'P' else 'p'))) := by
      unfold capturingPawnAdjacent
      constructor
      · rintro ⟨r, hr, hcond⟩
        rw [hg] at hr
        injection hr with hr
        rw [hr]
        exact hcond
      · intro hcond
        exact ⟨rankRaw, hg, hcond⟩
    have hsquare := normaliseEnPassant_square E P A rankRaw hne hsq hg
    constructor
    · intro hadj
      rw [if_pos (hiff.mp hadj)] at hsquare
      exact normaliseFen_of_parts fen P A C E rest hparts E hsquare
    · intro hnadj
      rw [if_neg (fun hcond => hnadj (hiff.mpr hcond))] at hsquare
      exact normaliseFen_of_parts fen P A C E rest hparts (str "-") hsquare

/-- C3 as frozen is refuted: this descriptor has four whitespace-separated
fields and an en-passant field that is a square on files a–h and rank 3 or
6, yet `normaliseFen` neither keeps nor strips the target — it throws,
because the placement has no 5th rank-row to inspect for black to move. -/
theorem claim_C3_counterexample :
    4 ≤ (fenParts (str "8 b - d6")).length ∧ isEpSquare (str "d6") = true ∧
    normaliseFen (str "8 b - d6") = Except.error rankMissingError := by
  decide

theorem claim_C3_witness :
    fenParts (str "rnbqkbnr/ppp2ppp/4p3/3pP3/8/8/PPPP1PPP/RNBQKBNR w KQkq d6 0 3")
      = [str "rnbqkbnr/ppp2ppp/4p3/3pP3/8/8/PPPP1PPP/RNBQKBNR", str "w", str "KQkq",
         str "d6", str "0", str "3"] ∧
    isEpSquare (str "d6") = true ∧
    8 - (if str "w" = str "w" then 5 else 4) <
      (splitOnPred (fun c => c == '/')
        (str "rnbqkbnr/ppp2ppp/4p3/3pP3/8/8/PPPP1PPP/RNBQKBNR")).length ∧
    capturingPawnAdjacent (str "rnbqkbnr/ppp2ppp/4p3/3pP3/8/8/PPPP1PPP/RNBQKBNR")
      (str "w") (str "d6") ∧
    normaliseFen (str "rnbqkbnr/ppp2ppp/4p3/3pP3/8/8/PPPP1PPP/RNBQKBNR w KQkq d6 0 3")
      = Except.ok (joinFen (str "rnbqkbnr/ppp2ppp/4p3/3pP3/8/8/PPPP1PPP/RNBQKBNR")
          (str "w") (str "KQkq") (str "d6")) :=
  ⟨by decide, by decide, by decide, ⟨str "3pP3", by decide, by decide⟩,
    (claim_C3_ep_rule
      (str "rnbqkbnr/ppp2ppp/4p3/3pP3/8/8/PPPP1PPP/RNBQKBNR w KQkq d6 0 3")
      (str "rnbqkbnr/ppp2ppp/4p3/3pP3/8/8/PPPP1PPP/RNBQKBNR") (str "w") (str "KQkq")
      (str "d6") [str "0", str "3"] (by decide) (by decide) (by decide)).1
      ⟨str "3pP3", by decide, by decide⟩⟩

/-- C4 (corrected): on every input where `normaliseFen` returns a key,
that key is a fixed point of `normaliseFen` — so
`normaliseFen (normaliseFen x) = normaliseFen x` whenever the inner
application is defined — and the key is itself well-formed (at least four
whitespace-separated fields, in fact exactly four). -/
theorem claim_C4_idempotent (x y : Str) (h : normaliseFen x = Except.ok y) :
    normaliseFen y = Except.ok y ∧ 4 ≤ (fenParts y).length := by
  refine ⟨normaliseFen_fixed x y h, ?_⟩
  obtain ⟨P, A, C, E, _, hfp, _⟩ := normaliseFen_ok_structure x y h
  rw [hfp]
  simp

/-- C4 as frozen is refuted on this descriptor: it has four
whitespace-separated fields (so it is well-formed in the claim's sense),
yet `normaliseFen` throws on it, so the inner application of the claimed
equation is not defined. -/
theorem claim_C4_counterexample :
    4 ≤ (fenParts (str "8/8 w - c6")).length ∧
    normaliseFen (str "8/8 w - c6") = Except.error rankMissingError := by
  decide

theorem claim_C4_witness :
    normaliseFen (str "8/8/8/8/8/8/8/8 w - a6 0 1")
      = Except.ok (str "8/8/8/8/8/8/8/8 w - -") ∧
    normaliseFen (str "8/8/8/8/8/8/8/8 w - -")
      = Except.ok (str "8/8/8/8/8/8/8/8 w - -") ∧
    4 ≤ (fenParts (str "8/8/8/8/8/8/8/8 w - -")).length :=
  ⟨by decide,
    (claim_C4_idempotent (str "8/8/8/8/8/8/8/8 w - a6 0 1")
      (str "8/8/8/8/8/8/8/8 w - -") (by decide)).1,
    (claim_C4_idempotent (str "8/8/8/8/8/8/8/8 w - a6 0 1")
      (str "8/8/8/8/8/8/8/8 w - -") (by decide)).2⟩

/-- C7 (corrected): `normaliseFen` is a pure function; on fewer than four
whitespace-separated fields it fails with the malformed-input error rather
than returning a key; and it returns a key on every well-formed descriptor
whose piece placement contains the rank inspected for a candidate
en-passant square (without that rank it throws instead). -/
theorem claim_C7_totality (fen : Str) :
    ((fenParts fen).length < 4 →
      normaliseFen fen = Except.error (insufficientPartsError fen)) ∧
    (4 ≤ (fenParts fen).length →
      (isEpSquare ((fenParts fen).getD 3 []) = true →
        8 - (if (fenParts fen).getD 1 [] = str "w" then 5 else 4) <
          (splitOnPred (fun c => c == '/') ((fenParts fen).getD 0 [])).length) →
      ∃ y, normaliseFen fen = Except.ok y) := by
  constructor
  · exact normaliseFen_error_of_short fen
  · intro hlen hrank
    obtain ⟨e', he⟩ := normaliseEnPassant_total ((fenParts fen).getD 3 [])
      ((fenParts fen).getD 0 []) ((fenParts fen).getD 1 []) hrank
    unfold normaliseFen
    dsimp only
    rw [if_neg (by omega), he]
    exact ⟨_, rfl⟩

/-- C7 as frozen is refuted: this descriptor has four whitespace-separated
fields — well-formed in the claim's sense — yet `normaliseFen` is not
total on it: it throws while inspecting a missing placement rank. -/
theorem claim_C7_counterexample :
    4 ≤ (fenParts (str "8 w - d6")).length ∧
    normaliseFen (str "8 w - d6") = Except.error rankMissingError := by
  decide

theorem claim_C7_witness :
    ((fenParts (str "abc def")).length < 4 ∧
      normaliseFen (str "abc def")
        = Except.error (insufficientPartsError (str "abc def"))) ∧
    (4 ≤ (fenParts (str "8/8/8/8/8/8/8/8 w KQkq a4 3 7")).length ∧
      ∃ y, normaliseFen (str "8/8/8/8/8/8/8/8 w KQkq a4 3 7") = Except.ok y) :=
  ⟨⟨by decide, (claim_C7_totality (str "abc def")).1 (by decide)⟩,
   ⟨by decide, (claim_C7_totality (str "8/8/8/8/8/8/8/8 w KQkq a4 3 7")).2
      (by decide) (by decide)⟩⟩

/-- C8 (confirmed): an en-passant field that is neither `-` nor a square
of the form file a–h, rank 3 or 6, passes through `normaliseFen`
unchanged: the output is the first three fields plus that exact field. -/
theorem claim_C8_passthrough (fen P A C E : Str) (rest : List Str)
    (hparts : fenParts fen = P :: A :: C :: E :: rest)
    (hne : E ≠ str "-") (hsq : isEpSquare E = false) :
    normaliseFen fen = Except.ok (joinFen P A C E) := by
  have hok : normaliseEnPassant E P A = .ok E := by
    unfold normaliseEnPassant
    rw [if_neg hne, if_pos hsq]
  exact normaliseFen_of_parts fen P A C E rest hparts E hok

theorem claim_C8_witness :
    fenParts (str "8/8/8/8/8/8/8/8 w KQkq a4 3 7")
      = [str "8/8/8/8/8/8/8/8", str "w", str "KQkq", str "a4", str "3", str "7"] ∧
    str "a4" ≠ str "-" ∧ isEpSquare (str "a4") = false ∧
    normaliseFen (str "8/8/8/8/8/8/8/8 w KQkq a4 3 7")
      = Except.ok (joinFen (str "8/8/8/8/8/8/8/8") (str "w") (str "KQkq") (str "a4")) :=
  ⟨by decide, by decide, by decide,
    claim_C8_passthrough (str "8/8/8/8/8/8/8/8 w KQkq a4 3 7") (str "8/8/8/8/8/8/8/8")
      (str "w") (str "KQkq") (str "a4") [str "3", str "7"]
      (by decide) (by decide) (by decide)⟩

/-- C10 (corrected): whenever `normaliseFen` returns a key, that key is
exactly four fields joined by single spaces: the input's first three
fields unchanged, then a fourth field that is either the input's fourth
field unchanged or `-`; fields beyond the fourth are dropped. -/
theorem claim_C10_frame (fen y : Str) (h : normaliseFen fen = Except.ok y) :
    ∃ ep, y = joinFen ((fenParts fen).getD 0 []) ((fenParts fen).getD 1 [])
        ((fenParts fen).getD 2 []) ep ∧
      (ep = (fenParts fen).getD 3 [] ∨ ep = str "-") ∧
      fenParts y = [(fenParts fen).getD 0 [], (fenParts fen).getD 1 [],
        (fenParts fen).getD 2 [], ep] := by
  obtain ⟨P, A, C, E, hj, hfp, _, hP, hA, hC, hE, _⟩ := normaliseFen_ok_structure fen y h
  subst hP
  subst hA
  subst hC
  exact ⟨E, hj, hE, hfp⟩

/-- C10 as frozen is refuted: this input has four whitespace-separated
fields, yet `normaliseFen` produces no output at all (it throws), so the
claimed shape of "the output" fails. -/
theorem claim_C10_counterexample :
    4 ≤ (fenParts (str "k7/8/8 b - e6")).length ∧
    normaliseFen (str "k7/8/8 b - e6") = Except.error rankMissingError := by
  decide

theorem claim_C10_witness :
    normaliseFen (str "r1bq1rk1/2p1bppp/p1np1n2/1p2p3/4P3/1BP2N1P/PP1P1PP1/RNBQR1K1 b - - 0 9")
      = Except.ok (str "r1bq1rk1/2p1bppp/p1np1n2/1p2p3/4P3/1BP2N1P/PP1P1PP1/RNBQR1K1 b - -") ∧
    ∃ ep, str "r1bq1rk1/2p1bppp/p1np1n2/1p2p3/4P3/1BP2N1P/PP1P1PP1/RNBQR1K1 b - -"
        = joinFen ((fenParts (str "r1bq1rk1/2p1bppp/p1np1n2/1p2p3/4P3/1BP2N1P/PP1P1PP1/RNBQR1K1 b - - 0 9")).getD 0 [])
          ((fenParts (str "r1bq1rk1/2p1bppp/p1np1n2/1p2p3/4P3/1BP2N1P/PP1P1PP1/RNBQR1K1 b - - 0 9")).getD 1 [])
          ((fenParts (str "r1bq1rk1/2p1bppp/p1np1n2/1p2p3/4P3/1BP2N1P/PP1P1PP1/RNBQR1K1 b - - 0 9")).getD 2 []) ep ∧
      (ep = (fenParts (str "r1bq1rk1/2p1bppp/p1np1n2/1p2p3/4P3/1BP2N1P/PP1P1PP1/RNBQR1K1 b - - 0 9")).getD 3 [] ∨
        ep = str "-") ∧
      fenParts (str "r1bq1rk1/2p1bppp/p1np1n2/1p2p3/4P3/1BP2N1P/PP1P1PP1/RNBQR1K1 b - -")
        = [(fenParts (str "r1bq1rk1/2p1bppp/p1np1n2/1p2p3/4P3/1BP2N1P/PP1P1PP1/RNBQR1K1 b - - 0 9")).getD 0 [],
           (fenParts (str "r1bq1rk1/2p1bppp/p1np1n2/1p2p3/4P3/1BP2N1P/PP1P1PP1/RNBQR1K1 b - - 0 9")).getD 1 [],
           (fenParts (str "r1bq1rk1/2p1bppp/p1np1n2/1p2p3/4P3/1BP2N1P/PP1P1PP1/RNBQR1K1 b - - 0 9")).getD 2 [], ep] :=
  ⟨by decide,
    claim_C10_frame
      (str "r1bq1rk1/2p1bppp/p1np1n2/1p2p3/4P3/1BP2N1P/PP1P1PP1/RNBQR1K1 b - - 0 9")
      (str "r1bq1rk1/2p1bppp/p1np1n2/1p2p3/4P3/1BP2N1P/PP1P1PP1/RNBQR1K1 b - -")
      (by decide)⟩


/-! ## Lemmas: the query result as a permutation of the merged rows -/

theorem insertByGames_perm (m : ResponseMove) :
    ∀ l, (insertByGames m l).Perm (m :: l) := by
  intro l
  induction l with
  | nil => exact List.Perm.refl _
  | cons x xs ih =>
    unfold insertByGames
    split
    · exact List.Perm.refl _
    · exact ((ih.cons x).trans (List.Perm.swap m x xs))

theorem sortByGames_perm : ∀ l, (sortByGames l).Perm l := by
  intro l
  induction l with
  | nil => exact List.Perm.refl _
  | cons x xs ih =>
    show (insertByGames x (sortByGames xs)).Perm (x :: xs)
    exact (insertByGames_perm x (sortByGames xs)).trans (ih.cons x)

theorem respNames_perm (rows : List MoveRow) :
    ((sortByGames (rows.map transformMove)).map (fun m => m.move)).Perm
      (moveNames rows) := by
  have h1 := (sortByGames_perm (rows.map transformMove)).map (fun m => m.move)
  rw [List.map_map] at h1
  exact h1

/-- On a successfully normalised key with an en-passant target, the query
result is the (possibly merged) move rows, transformed and sorted. -/
theorem queryPosition_ep_eq (repo : OpeningTreeRepository) (fen y P A C E : Str)
    (pos : PositionRow) (hn : normaliseFen fen = Except.ok y)
    (hfp : fenParts y = [P, A, C, E]) (hep : E ≠ str "-")
    (hpos : repo.getPositionByFen y = some pos) :
    queryPosition repo fen = Except.ok (some
      { fen := pos.fen,
        moves := sortByGames ((match repo.getPositionByFen (joinFen P A C (str "-")) with
          | some q => mergeMoves (repo.getMovesFromPosition pos.id)
              (repo.getMovesFromPosition q.id)
          | none => repo.getMovesFromPosition pos.id).map transformMove) }) := by
  obtain ⟨P2, A2, C2, E2, hj, hfp2, hjs2, _⟩ := normaliseFen_ok_structure fen y hn
  rw [hfp] at hfp2
  injection hfp2 with h1 hfp2
  injection hfp2 with h2 hfp2
  injection hfp2 with h3 hfp2
  injection hfp2 with h4 hfp2
  subst h1
  subst h2
  subst h3
  subst h4
  rw [queryPosition_found repo fen y pos hn hpos,
    epMergedMoves_withEp repo y P A C E pos hjs2 hep]

/-- On a successfully normalised key with an en-passant target whose
no-en-passant twin also exists, the query result is the de-duplicated
union of both positions' rows: same move-name set, no duplicate names,
and each entry derived from the en-passant position's rows when its name
occurs there, else from the twin's rows. -/
theorem queryPosition_ep_union (repo : OpeningTreeRepository) (fen y P A C E : Str)
    (pos noEpPos : PositionRow) (hn : normaliseFen fen = Except.ok y)
    (hfp : fenParts y = [P, A, C, E]) (hep : E ≠ str "-")
    (hpos : repo.getPositionByFen y = some pos)
    (hq : repo.getPositionByFen (joinFen P A C (str "-")) = some noEpPos) :
    ∃ resp, queryPosition repo fen = Except.ok (some resp) ∧ resp.fen = pos.fen ∧
      (∀ n, n ∈ resp.moves.map (fun m => m.move) ↔
        n ∈ moveNames (repo.getMovesFromPosition pos.id) ∨
        n ∈ moveNames (repo.getMovesFromPosition noEpPos.id)) ∧
      (resp.moves.map (fun m => m.move)).Nodup ∧
      (∀ m ∈ resp.moves,
        (∃ r ∈ repo.getMovesFromPosition pos.id, m = transformMove r) ∨
        (∃ r ∈ repo.getMovesFromPosition noEpPos.id, m = transformMove r ∧
          r.move ∉ moveNames (repo.getMovesFromPosition pos.id))) := by
  have heq := queryPosition_ep_eq repo fen y P A C E pos hn hfp hep hpos
  rw [hq] at heq
  refine ⟨_, heq, rfl, ?_, ?_, ?_⟩
  · intro n
    rw [(respNames_perm _).mem_iff]
    exact mem_moveNames_mergeMoves _ _ n
  · exact (respNames_perm _).nodup_iff.mpr (moveNames_mergeMoves_nodup _ _)
  · intro m hm
    rw [mem_sortByGames] at hm
    obtain ⟨r, hr, hmr⟩ := List.mem_map.mp hm
    rcases mem_mergeMoves_cases _ _ r hr with h1 | ⟨h2, h3⟩
    · exact .inl ⟨r, h1, hmr.symm⟩
    · exact .inr ⟨r, h2, hmr.symm, h3⟩

/-! ## Claim theorems: the query service (C1, C2, C6, C9) -/

/-- C1 (confirmed): a queried key that normalises with an en-passant
target and is found in the store returns, when the same position with
en-passant forced to `-` also exists, the union of both positions'
outgoing-move sets de-duplicated by move notation, entries from the
en-passant key's position winning; without the twin, the union degenerates
to the position's own rows (`movesOfKey` of the bare key is empty). -/
theorem claim_C1_query_ep_merge (repo : OpeningTreeRepository) (fen y P A C E : Str)
    (pos : PositionRow) (hn : normaliseFen fen = Except.ok y)
    (hfp : fenParts y = [P, A, C, E]) (hep : E ≠ str "-")
    (hpos : repo.getPositionByFen y = some pos)
    (noEpPos : PositionRow)
    (hq : repo.getPositionByFen (joinFen P A C (str "-")) = some noEpPos) :
    ∃ resp, queryPosition repo fen = Except.ok (some resp) ∧ resp.fen = pos.fen ∧
      (∀ n, n ∈ resp.moves.map (fun m => m.move) ↔
        n ∈ moveNames (repo.getMovesFromPosition pos.id) ∨
        n ∈ moveNames (movesOfKey repo (joinFen P A C (str "-")))) ∧
      (resp.moves.map (fun m => m.move)).Nodup ∧
      (∀ m ∈ resp.moves,
        (∃ r ∈ repo.getMovesFromPosition pos.id, m = transformMove r) ∨
        (∃ r ∈ movesOfKey repo (joinFen P A C (str "-")), m = transformMove r ∧
          r.move ∉ moveNames (repo.getMovesFromPosition pos.id))) := by
  have hkey : movesOfKey repo (joinFen P A C (str "-"))
      = repo.getMovesFromPosition noEpPos.id := by
    unfold movesOfKey
    rw [hq]
  rw [hkey]
  exact queryPosition_ep_union repo fen y P A C E pos noEpPos hn hfp hep hpos hq

/-- C2 as frozen is refuted: the same position is stored under a key with
a genuine (kept-by-normalisation) en-passant target and under the bare
key, yet querying by the bare key returns only that position's own move
`Nf3` — the move `exd6` stored under the en-passant key is missing, so
the result is not the union of both move sets. -/
theorem claim_C2_counterexample :
    normaliseFen wQueryEp = Except.ok wKeyEp ∧
    wRepo.getPositionByFen wKeyEp = some { id := 1, fen := wKeyEp } ∧
    wRepo.getPositionByFen wKeyNo = some { id := 2, fen := wKeyNo } ∧
    wRowA ∈ wRepo.getMovesFromPosition 1 ∧ wRowA.move = str "exd6" ∧
    normaliseFen wQueryNo = Except.ok wKeyNo ∧
    queryPosition wRepo wQueryNo = Except.ok (some wRespNo) ∧
    str "exd6" ∉ wRespNo.moves.map (fun m => m.move) := by
  decide

/-- C2 (corrected): a position stored both under a key with a genuine
en-passant target and under the bare key returns the de-duplicated union
of both move sets when queried by the en-passant key; queried by the bare
key it returns only that position's own moves (no merge happens). -/
theorem claim_C2_query_merge :
    (∀ (repo : OpeningTreeRepository) (fen y P A C E : Str) (pos noEpPos : PositionRow),
      normaliseFen fen = Except.ok y → fenParts y = [P, A, C, E] → E ≠ str "-" →
      repo.getPositionByFen y = some pos →
      repo.getPositionByFen (joinFen P A C (str "-")) = some noEpPos →
      ∃ resp, queryPosition repo fen = Except.ok (some resp) ∧
        (∀ n, n ∈ resp.moves.map (fun m => m.move) ↔
          n ∈ moveNames (repo.getMovesFromPosition pos.id) ∨
          n ∈ moveNames (repo.getMovesFromPosition noEpPos.id)) ∧
        (resp.moves.map (fun m => m.move)).Nodup) ∧
    (∀ (repo : OpeningTreeRepository) (fen y P A C : Str) (pos : PositionRow),
      normaliseFen fen = Except.ok y → fenParts y = [P, A, C, str "-"] →
      repo.getPositionByFen y = some pos →
      queryPosition repo fen = Except.ok (some
        { fen := pos.fen,
          moves := sortByGames ((repo.getMovesFromPosition pos.id).map transformMove) })) := by
  constructor
  · intro repo fen y P A C E pos noEpPos hn hfp hep hpos hq
    obtain ⟨resp, h1, _, h3, h4, _⟩ :=
      queryPosition_ep_union repo fen y P A C E pos noEpPos hn hfp hep hpos hq
    exact ⟨resp, h1, h3, h4⟩
  · intro repo fen y P A C pos hn hfp hpos
    obtain ⟨P2, A2, C2, E2, hj, hfp2, hjs2, _⟩ := normaliseFen_ok_structure fen y hn
    rw [hfp] at hfp2
    injection hfp2 with h1 hfp2
    injection hfp2 with h2 hfp2
    injection hfp2 with h3 hfp2
    injection hfp2 with h4 hfp2
    subst h1
    subst h2
    subst h3
    subst h4
    rw [queryPosition_found repo fen y pos hn hpos,
      epMergedMoves_dash repo y P A C pos hjs2]

/-! ## Claim theorems: the route handler (C5) -/

/-- C5 (confirmed): for a `GET /{tree}/{key}` request, an unknown tree
name yields a 404 reply with a detail message, and a known tree whose
(normalised) position key is absent from the store yields a 404 reply
with a detail message; neither path raises.  The query path is pure —
the repository offers only read operations, so no store state can be
mutated. -/
theorem claim_C5_not_found (services : Str → Option OpeningTreeRepository)
    (treeName fen : Str) :
    (services treeName = none →
      handleTreeQuery services treeName fen
        = Except.ok (404, ReplyBody.detail (treeNotFoundDetail treeName))) ∧
    (∀ repo y, services treeName = some repo → normaliseFen fen = Except.ok y →
      repo.getPositionByFen y = none →
      handleTreeQuery services treeName fen
        = Except.ok (404, ReplyBody.detail (positionNotFoundDetail fen))) := by
  constructor
  · intro h
    unfold handleTreeQuery
    rw [h]
  · intro repo y hsvc hn hp
    unfold handleTreeQuery
    rw [hsvc]
    dsimp only
    rw [queryPosition_missing repo fen y hn hp]

/-- C6 (confirmed): every found position's response is sorted by
`total_games` in descending order, and every entry's `rating` and
`performance` are the truncated divisions of the corresponding stored
row's `total_player_elo` and `total_player_performance` by its
`total_games`. -/
theorem claim_C6_sorted_stats (repo : OpeningTreeRepository) (fen : Str)
    (resp : PositionResponse)
    (h : queryPosition repo fen = Except.ok (some resp)) :
    resp.moves.Pairwise (fun u v => v.total_games ≤ u.total_games) ∧
    ∀ m ∈ resp.moves, ∃ pid r, r ∈ repo.getMovesFromPosition pid ∧
      m.move = r.move ∧ m.fen = r.fen ∧ m.total_games = r.total_games ∧
      m.rating = jsDivTrunc r.total_player_elo r.total_games ∧
      m.performance = jsDivTrunc r.total_player_performance r.total_games := by
  obtain ⟨y, pos, hn, hp, hresp⟩ := queryPosition_ok_inv repo fen resp h
  subst hresp
  refine ⟨sortByGames_sorted _, ?_⟩
  intro m hm
  dsimp only at hm
  rw [mem_sortByGames] at hm
  obtain ⟨r, hr, hmr⟩ := List.mem_map.mp hm
  obtain ⟨pid, hpid⟩ := mem_epMergedMoves repo y pos r hr
  subst hmr
  exact ⟨pid, r, hpid, rfl, rfl, rfl, rfl, rfl⟩

/-- C9 (confirmed): the statistics divisions carry no zero guard, but if
every repository row has `total_games ≥ 1` then every returned `rating`
and `performance` is a finite integer; a row with `total_games = 0` would
produce a non-finite value (`none` in the model) for both fields. -/
theorem claim_C9_div_safety (repo : OpeningTreeRepository) (fen : Str)
    (resp : PositionResponse)
    (h : queryPosition repo fen = Except.ok (some resp))
    (hpos : ∀ pid, ∀ r ∈ repo.getMovesFromPosition pid, 1 ≤ r.total_games) :
    (∀ m ∈ resp.moves, m.rating.isSome = true ∧ m.performance.isSome = true) ∧
    (∀ r : MoveRow, r.total_games = 0 →
      (transformMove r).rating = none ∧ (transformMove r).performance = none) := by
  constructor
  · obtain ⟨y, pos, hn, hp, hresp⟩ := queryPosition_ok_inv repo fen resp h
    subst hresp
    intro m hm
    dsimp only at hm
    rw [mem_sortByGames] at hm
    obtain ⟨r, hr, hmr⟩ := List.mem_map.mp hm
    obtain ⟨pid, hpid⟩ := mem_epMergedMoves repo y pos r hr
    have hg := hpos pid r hpid
    subst hmr
    constructor
    · exact jsDivTrunc_isSome _ _ (by omega)
    · exact jsDivTrunc_isSome _ _ (by omega)
  · intro r h0
    constructor
    · show jsDivTrunc r.total_player_elo r.total_games = none
      rw [h0]
      exact jsDivTrunc_zero _
    · show jsDivTrunc r.total_player_performance r.total_games = none
      rw [h0]
      exact jsDivTrunc_zero _

/-! ## Witnesses for the query-service and router claims -/

theorem claim_C1_witness :
    normaliseFen wQueryEp = Except.ok wKeyEp ∧
    fenParts wKeyEp = [str "rnbqkbnr/ppp2ppp/4p3/3pP3/8/8/PPPP1PPP/RNBQKBNR",
      str "w", str "KQkq", str "d6"] ∧
    wRepo.getPositionByFen wKeyEp = some { id := 1, fen := wKeyEp } ∧
    wRepo.getPositionByFen (joinFen (str "rnbqkbnr/ppp2ppp/4p3/3pP3/8/8/PPPP1PPP/RNBQKBNR")
      (str "w") (str "KQkq") (str "-")) = some { id := 2, fen := wKeyNo } ∧
    (∃ resp, queryPosition wRepo wQueryEp = Except.ok (some resp) ∧
      resp.fen = wKeyEp ∧
      (∀ n, n ∈ resp.moves.map (fun m => m.move) ↔
        n ∈ moveNames (wRepo.getMovesFromPosition 1) ∨
        n ∈ moveNames (movesOfKey wRepo
          (joinFen (str "rnbqkbnr/ppp2ppp/4p3/3pP3/8/8/PPPP1PPP/RNBQKBNR")
            (str "w") (str "KQkq") (str "-")))) ∧
      (resp.moves.map (fun m => m.move)).Nodup ∧
      (∀ m ∈ resp.moves,
        (∃ r ∈ wRepo.getMovesFromPosition 1, m = transformMove r) ∨
        (∃ r ∈ movesOfKey wRepo
            (joinFen (str "rnbqkbnr/ppp2ppp/4p3/3pP3/8/8/PPPP1PPP/RNBQKBNR")
              (str "w") (str "KQkq") (str "-")), m = transformMove r ∧
          r.move ∉ moveNames (wRepo.getMovesFromPosition 1)))) :=
  ⟨by decide, by decide, by decide, by decide,
    claim_C1_query_ep_merge wRepo wQueryEp wKeyEp
      (str "rnbqkbnr/ppp2ppp/4p3/3pP3/8/8/PPPP1PPP/RNBQKBNR") (str "w") (str "KQkq")
      (str "d6") { id := 1, fen := wKeyEp } (by decide) (by decide) (by decide)
      (by decide) { id := 2, fen := wKeyNo } (by decide)⟩

theorem claim_C2_witness :
    normaliseFen wQueryEp = Except.ok wKeyEp ∧ normaliseFen wQueryNo = Except.ok wKeyNo ∧
    (∃ resp, queryPosition wRepo wQueryEp = Except.ok (some resp) ∧
      (∀ n, n ∈ resp.moves.map (fun m => m.move) ↔
        n ∈ moveNames (wRepo.getMovesFromPosition 1) ∨
        n ∈ moveNames (wRepo.getMovesFromPosition 2)) ∧
      (resp.moves.map (fun m => m.move)).Nodup) ∧
    queryPosition wRepo wQueryNo = Except.ok (some
      { fen := wKeyNo,
        moves := sortByGames ((wRepo.getMovesFromPosition 2).map transformMove) }) :=
  ⟨by decide, by decide,
    claim_C2_query_merge.1 wRepo wQueryEp wKeyEp
      (str "rnbqkbnr/ppp2ppp/4p3/3pP3/8/8/PPPP1PPP/RNBQKBNR") (str "w") (str "KQkq")
      (str "d6") { id := 1, fen := wKeyEp } { id := 2, fen := wKeyNo }
      (by decide) (by decide) (by decide) (by decide) (by decide),
    claim_C2_query_merge.2 wRepo wQueryNo wKeyNo
      (str "rnbqkbnr/ppp2ppp/4p3/3pP3/8/8/PPPP1PPP/RNBQKBNR") (str "w") (str "KQkq")
      { id := 2, fen := wKeyNo } (by decide) (by decide) (by decide)⟩

theorem claim_C5_witness :
    (wServices (str "u") = none ∧
      handleTreeQuery wServices (str "u") (str "x")
        = Except.ok (404, ReplyBody.detail (treeNotFoundDetail (str "u")))) ∧
    (wServices (str "t") = some wRepo ∧
      normaliseFen (str "8/8/8/8/8/8/8/8 w - - 0 1")
        = Except.ok (str "8/8/8/8/8/8/8/8 w - -") ∧
      wRepo.getPositionByFen (str "8/8/8/8/8/8/8/8 w - -") = none ∧
      handleTreeQuery wServices (str "t") (str "8/8/8/8/8/8/8/8 w - - 0 1")
        = Except.ok (404,
            ReplyBody.detail (positionNotFoundDetail (str "8/8/8/8/8/8/8/8 w - - 0 1")))) :=
  ⟨⟨rfl, (claim_C5_not_found wServices (str "u") (str "x")).1 rfl⟩,
   ⟨rfl, by decide, by decide,
    (claim_C5_not_found wServices (str "t") (str "8/8/8/8/8/8/8/8 w - - 0 1")).2
      wRepo (str "8/8/8/8/8/8/8/8 w - -") rfl (by decide) (by decide)⟩⟩

theorem claim_C6_witness :
    queryPosition wRepo wQueryEp = Except.ok (some wRespEp) ∧
    (wRespEp.moves.Pairwise (fun u v => v.total_games ≤ u.total_games) ∧
     ∀ m ∈ wRespEp.moves, ∃ pid r, r ∈ wRepo.getMovesFromPosition pid ∧
       m.move = r.move ∧ m.fen = r.fen ∧ m.total_games = r.total_games ∧
       m.rating = jsDivTrunc r.total_player_elo r.total_games ∧
       m.performance = jsDivTrunc r.total_player_performance r.total_games) :=
  ⟨by decide, claim_C6_sorted_stats wRepo wQueryEp wRespEp (by decide)⟩

theorem claim_C9_witness :
    queryPosition wRepo wQueryEp = Except.ok (some wRespEp) ∧
    (∀ pid, ∀ r ∈ wRepo.getMovesFromPosition pid, 1 ≤ r.total_games) ∧
    ((∀ m ∈ wRespEp.moves, m.rating.isSome = true ∧ m.performance.isSome = true) ∧
     (∀ r : MoveRow, r.total_games = 0 →
       (transformMove r).rating = none ∧ (transformMove r).performance = none)) := by
  have hpos : ∀ pid, ∀ r ∈ wRepo.getMovesFromPosition pid, 1 ≤ r.total_games := by
    intro pid r hr
    unfold wRepo at hr
    dsimp only at hr
    split at hr
    · rw [List.mem_singleton] at hr
      subst hr
      decide
    · split at hr
      · rw [List.mem_singleton] at hr
        subst hr
        decide
      · simp at hr
  exact ⟨by decide, hpos, claim_C9_div_safety wRepo wQueryEp wRespEp (by decide) hpos⟩

end OpeningTrees






